import Mathlib

/-!
# Verification of the `reactbound` event dispatcher (`src/events.js`)

Shallow embedding of the pattern-trie event emitter: the `EventEntry` trie,
registration (`on`, `once`), removal (`off`, `removeAllListeners`) and the
emission walk (`_emit`), together with theorems settling the frozen claims
about the natural-language specification.

Modelling conventions:
* JS handler values are `HVal`: an ordinary function (`plain`, identified by a
  numeric id standing for its reference identity), the internal `once` wrapper
  closure (`wrapper`, capturing the registration pattern and the wrapped
  handler, `none` when the wrapped handler is a falsy value), or a falsy
  non-function value (`falsy`).  JS `===` on handler references is modelled by
  structural equality, faithful here because no theorem involves two distinct
  closures with equal captured data.
* JS in-place mutation of the trie is modelled by threading the root entry
  through every operation; `_emit`'s live reads of mutated arrays/nodes are
  modelled by re-resolving the current node from the threaded root at each
  access (sound because `off` never detaches or replaces existing nodes, it
  only splices handler arrays and may attach a missing wildcard child).
* The dispatcher is embedded in its default configuration relevant to the
  claims: `storeHandlers` is absent (the code then keeps the bucket as-is),
  and the emit-side model fixes the default wildcard token `*`; the
  registration/removal walks keep the wildcard token as a parameter.
-/

/-- A JS handler value: a plain function, the `once` wrapper closure, or a
falsy non-function value. -/
inductive HVal where
  | plain (id : Nat)
  | wrapper (name : List String) (inner : Option Nat)
  | falsy
  deriving DecidableEq

/-- JS truthiness of a handler value: only non-functions passed as handlers
are falsy; functions (including the `once` wrapper) are truthy. -/
def truthy : HVal → Bool
  | .falsy => false
  | _ => true

/-- The trie node of `events.js`: `children` (literal-segment map, modelled as
an association list in insertion order), `handlers` (exact bucket), `allBelow`
(below-wildcard bucket) and the lazily created wildcard child `_all`. -/
inductive EventEntry where
  | mk (children : List (String × EventEntry)) (handlers : List HVal)
      (allBelow : List HVal) (allChild : Option EventEntry)

/-- The `children` field of a trie node. -/
def EventEntry.children : EventEntry → List (String × EventEntry)
  | .mk cs _ _ _ => cs

/-- The `handlers` field of a trie node. -/
def EventEntry.handlers : EventEntry → List HVal
  | .mk _ hs _ _ => hs

/-- The `allBelow` field of a trie node. -/
def EventEntry.allBelow : EventEntry → List HVal
  | .mk _ _ bs _ => bs

/-- The `_all` field of a trie node (the lazily created wildcard child). -/
def EventEntry.allChild : EventEntry → Option EventEntry
  | .mk _ _ _ al => al

/-- `new EventEntry()`: empty children, handlers and below bucket, no
wildcard child. -/
def emptyEntry : EventEntry := .mk [] [] [] none

/-- Lookup of `children[key]` in the association-list model. -/
def findChild (k : String) : List (String × EventEntry) → Option EventEntry
  | [] => none
  | (k1, v) :: rest => if k1 = k then some v else findChild k rest

/-- Update/insert of `children[key] = v` in the association-list model. -/
def setChild (k : String) (v : EventEntry) :
    List (String × EventEntry) → List (String × EventEntry)
  | [] => [(k, v)]
  | (k1, v1) :: rest =>
      if k1 = k then (k1, v) :: rest else (k1, v1) :: setChild k v rest

/-- Removal of the first `===`-equal element, as `indexOf` + `splice(idx, 1)`
behave (no-op when the element is absent). -/
def removeFirst (h : HVal) : List HVal → List HVal
  | [] => []
  | x :: xs => if x = h then xs else x :: removeFirst h xs

namespace Events

/-- The loop body of `Events.prototype.on` after the falsy-handler guard:
walks/creates trie nodes segment by segment; a wildcard segment advances into
`getAll()` (created if absent), a double-wildcard segment pushes into the
current node's `allBelow` and keeps looping, any other segment advances into
`getChild(part)`; after the loop the handler is pushed onto the final node's
`handlers`. -/
def onWalk (wc dw : String) (h : HVal) : List String → EventEntry → EventEntry
  | [], .mk cs hs bs al => .mk cs (hs ++ [h]) bs al
  | p :: ps, .mk cs hs bs al =>
      if p = wc then
        .mk cs hs bs (some (onWalk wc dw h ps (al.getD emptyEntry)))
      else if p = dw then
        onWalk wc dw h ps (.mk cs hs (bs ++ [h]) al)
      else
        .mk (setChild p (onWalk wc dw h ps ((findChild p cs).getD emptyEntry)) cs)
          hs bs al

/-- `Events.prototype.on` on an already-split pattern: no-op on a falsy
handler, otherwise the registration walk.  `wc` is the configured wildcard
token; the double-wildcard token is the wildcard token doubled. -/
def addListener (wc : String) (parts : List String) (h : HVal) (e : EventEntry) :
    EventEntry :=
  if truthy h then onWalk wc (wc ++ wc) h parts e else e

/-- Terminal step of `Events.prototype.off`: with a handler, splice out the
first `===`-equal entry of `handlers`; without one, truncate `handlers`. -/
def offTerminal (h? : Option HVal) : EventEntry → EventEntry
  | .mk cs hs bs al =>
      match h? with
      | some h => .mk cs (removeFirst h hs) bs al
      | none => .mk cs [] bs al

/-- Double-wildcard step of `Events.prototype.off`: with a handler, splice out
the first `===`-equal entry of `allBelow`; without one, replace `allBelow`
with an empty bucket.  The walk returns immediately afterwards. -/
def offBelow (h? : Option HVal) : EventEntry → EventEntry
  | .mk cs hs bs al =>
      match h? with
      | some h => .mk cs hs (removeFirst h bs) al
      | none => .mk cs hs [] al

/-- The walk of `Events.prototype.off`: a wildcard segment advances into
`getAll()` (which creates the wildcard child when absent), a double-wildcard
segment edits `allBelow` and returns, any other segment advances into the
existing literal child (the walk ends, changing nothing further, when it is
absent); at the end of the pattern the terminal bucket is edited. -/
def offWalk (wc dw : String) (h? : Option HVal) :
    List String → EventEntry → EventEntry
  | [], e => offTerminal h? e
  | p :: ps, .mk cs hs bs al =>
      if p = wc then
        .mk cs hs bs (some (offWalk wc dw h? ps (al.getD emptyEntry)))
      else if p = dw then
        offBelow h? (.mk cs hs bs al)
      else
        match findChild p cs with
        | none => .mk cs hs bs al
        | some c => .mk (setChild p (offWalk wc dw h? ps c) cs) hs bs al

/-- `Events.prototype.off` on an already-split pattern. -/
def off (wc : String) (parts : List String) (h? : Option HVal)
    (e : EventEntry) : EventEntry :=
  offWalk wc (wc ++ wc) h? parts e

/-- `Events.prototype.once`: registers the internal `process` wrapper (which
captures the pattern and the wrapped handler) via `on`.  The wrapper is a
function, hence truthy, so the falsy-handler guard of `on` never rejects it. -/
def once (wc : String) (parts : List String) (inner : Option Nat)
    (e : EventEntry) : EventEntry :=
  addListener wc parts (.wrapper parts inner) e

/-- `Events.prototype.removeAllListeners`: replaces the root with a fresh
entry. -/
def removeAllListeners (_e : EventEntry) : EventEntry := emptyEntry

end Events

/-- Character-level splitting loop for `splitName`, accumulating the current
segment in reverse. -/
def splitChars (acc : List Char) : List Char → List String
  | [] => [String.mk acc.reverse]
  | c :: cs =>
      if c = '.' then String.mk acc.reverse :: splitChars [] cs
      else splitChars (c :: acc) cs

/-- Splitting an event name or pattern on the default delimiter `.`, as
`name.split(this.delimiter)` does (for a one-character plain delimiter this
is exactly segment-wise splitting; the empty name splits to `[""]`). -/
def splitName (s : String) : List String := splitChars [] s.data

/-- `on` against the default configuration, taking the unsplit pattern. -/
def onStr (name : String) (h : HVal) (e : EventEntry) : EventEntry :=
  Events.addListener "*" (splitName name) h e

/-- `off` against the default configuration, taking the unsplit pattern. -/
def offStr (name : String) (h? : Option HVal) (e : EventEntry) : EventEntry :=
  Events.off "*" (splitName name) h? e

/-- Resolving the node at a path of literal child segments. -/
def nodeAtLit : EventEntry → List String → Option EventEntry
  | e, [] => some e
  | e, s :: ps =>
      match findChild s e.children with
      | none => none
      | some c => nodeAtLit c ps

/-- One step of the route `_emit` takes through the trie: descending into a
literal child (`scan = scan.children[part]`) or into the wildcard child
(`_emit(scan.getAll(), ...)`). -/
inductive PathStep where
  | child (s : String)
  | all

/-- Resolving the node an emission walk is currently at, from the threaded
root: this models `scan` being a live reference into the mutated structure. -/
def nodeAt (e : EventEntry) : List PathStep → Option EventEntry
  | [] => some e
  | .child s :: π =>
      match findChild s e.children with
      | none => none
      | some c => nodeAt c π
  | .all :: π =>
      match e.allChild with
      | none => none
      | some a => nodeAt a π

/-- The live `allBelow` array of the node at a path (empty when the node is
gone, which cannot happen for paths `_emit` actually holds). -/
def allBelowAt (σ : EventEntry) (π : List PathStep) : List HVal :=
  ((nodeAt σ π).map EventEntry.allBelow).getD []

/-- The live `handlers` array of the node at a path. -/
def handlersAt (σ : EventEntry) (π : List PathStep) : List HVal :=
  ((nodeAt σ π).map EventEntry.handlers).getD []

/-- Invoking one handler from an eager-call emission (`call(handler)` with
`fn.apply(this, params)`).  A plain function runs and returns.  The `once`
wrapper `process` first removes itself via `self.off(name, process)` and then
calls the wrapped handler: when that handler is a falsy value the call throws
a `TypeError` (third component `true`), which propagates out of the emission.
A falsy bucket entry itself would also throw if called, but the eager loops
guard each call with `if (handler)`.  The middle component records the handler
values passed to `call`, in order. -/
def invoke (σ : EventEntry) (h : HVal) : EventEntry × List HVal × Bool :=
  match h with
  | .plain k => (σ, [.plain k], false)
  | .falsy => (σ, [.falsy], true)
  | .wrapper nm inner =>
      let σ1 := Events.off "*" nm (some (.wrapper nm inner)) σ
      match inner with
      | none => (σ1, [.wrapper nm inner], true)
      | some _ => (σ1, [.wrapper nm inner], false)

/-- The backward `allBelow` loop of `_emit` in eager-call mode:
`let i = allBelow.length; for (--i; i >= 0; i--) if (allBelow[i]) call(...)`.
The loop counter was fixed from the array length on entry, but each element is
re-read from the live (possibly spliced) array; an out-of-range read yields
`undefined` and is skipped by the truthiness guard.  A thrown exception stops
the loop and propagates. -/
def fireBelow (σ : EventEntry) (π : List PathStep) :
    Nat → EventEntry × List HVal × Bool
  | 0 => (σ, [], false)
  | i + 1 =>
      match (allBelowAt σ π)[i]? with
      | none => fireBelow σ π i
      | some h =>
          if truthy h then
            let c := invoke σ h
            if c.2.2 then c
            else
              let r := fireBelow c.1 π i
              (r.1, c.2.1 ++ r.2.1, r.2.2)
          else fireBelow σ π i

/-- The forward terminal `handlers` loop of `_emit` in eager-call mode:
`for (let i = 0, l = currentHandlers.length; i < l; i++)` with the bound `l`
cached on entry, each element re-read live and guarded by
`if (currentHandler)`.  The fuel argument is `l - i`. -/
def fireHandlers (σ : EventEntry) (π : List PathStep) (i : Nat) :
    Nat → EventEntry × List HVal × Bool
  | 0 => (σ, [], false)
  | fuel + 1 =>
      match (handlersAt σ π)[i]? with
      | none => fireHandlers σ π (i + 1) fuel
      | some h =>
          if truthy h then
            let c := invoke σ h
            if c.2.2 then c
            else
              let r := fireHandlers c.1 π (i + 1) fuel
              (r.1, c.2.1 ++ r.2.1, r.2.2)
          else fireHandlers σ π (i + 1) fuel

/-- `_emit` in eager-call mode (used by `emit` and, modulo promise wrapping,
`emitAsync`): per segment, fire the current node's `allBelow` backward, then
recurse into the wildcard child with the next index if `scan._all` is set
(checked on the live node), then advance into the literal child for the
current segment; a walk that runs off the trie contributes nothing; when the
segments are exhausted at a live node its `handlers` fire forward.  Returns
the threaded root, the call log, and whether an exception escaped. -/
def emitWalk (σ : EventEntry) (π : List PathStep) :
    List String → EventEntry × List HVal × Bool
  | [] =>
      match nodeAt σ π with
      | none => (σ, [], false)
      | some e => fireHandlers σ π 0 e.handlers.length
  | p :: ps =>
      match nodeAt σ π with
      | none => (σ, [], false)
      | some e =>
          let r1 := fireBelow σ π e.allBelow.length
          if r1.2.2 then r1
          else
            let r2 :=
              if ((nodeAt r1.1 π).map (fun n => n.allChild.isSome)).getD false
              then emitWalk r1.1 (π ++ [.all]) ps
              else (r1.1, [], false)
            if r2.2.2 then (r2.1, r1.2.1 ++ r2.2.1, true)
            else
              let r3 := emitWalk r2.1 (π ++ [.child p]) ps
              (r3.1, r1.2.1 ++ r2.2.1 ++ r3.2.1, r3.2.2)

/-- `Events.prototype.emit` on an already-split event name: the eager-call
walk from the root.  (The `this.event` bookkeeping and returning the argument
list are orthogonal to the claims.) -/
def Events.emit (σ : EventEntry) (parts : List String) :
    EventEntry × List HVal × Bool :=
  emitWalk σ [] parts

/-- `emit` against the default configuration, taking the unsplit event name. -/
def emitStr (σ : EventEntry) (name : String) :
    EventEntry × List HVal × Bool :=
  Events.emit σ (splitName name)

/-- The call order of an eager emission on a trie that the invoked handlers do
not mutate: `allBelow` in reverse registration order (truthy entries only),
then the wildcard-child subtree, then the literal-child subtree; terminal
`handlers` forward.  This is the specification-level companion of `emitWalk`,
used to reason about walks whose calls neither throw nor mutate. -/
def pureCalls : Option EventEntry → List String → List HVal
  | none, _ => []
  | some e, [] => e.handlers.filter truthy
  | some e, p :: ps =>
      e.allBelow.reverse.filter truthy ++
        (match e.allChild with
          | some a => pureCalls (some a) ps
          | none => []) ++
        pureCalls (findChild p e.children) ps

/-- `_emit` in collect mode (used by `emitAsyncSequential`): no handler is
invoked during the walk; `allBelow` buckets are appended in forward
registration order via `push.apply`, terminal `handlers` forward, falsy
entries included. -/
def collectCalls : Option EventEntry → List String → List HVal
  | none, _ => []
  | some e, [] => e.handlers
  | some e, p :: ps =>
      e.allBelow ++
        (match e.allChild with
          | some a => collectCalls (some a) ps
          | none => []) ++
        collectCalls (findChild p e.children) ps

/-- The await loop of `emitAsyncSequential`: each collected handler is awaited
in order; the behaviour function gives each handler's settled result; a
rejection stops the loop and is the loop's outcome.  Returns the handlers
whose invocation was started, in order, and the outcome. -/
def runSeq (beh : HVal → Except String Unit) :
    List HVal → List HVal × Except String Unit
  | [] => ([], .ok ())
  | h :: rest =>
      match beh h with
      | .error msg => ([h], .error msg)
      | .ok _ =>
          let r := runSeq beh rest
          (h :: r.1, r.2)

/-- `Events.prototype.emitAsyncSequential` on an already-split event name:
collect all matching handlers, then await them one at a time. -/
def Events.emitAsyncSequential (beh : HVal → Except String Unit)
    (σ : EventEntry) (parts : List String) : List HVal × Except String Unit :=
  runSeq beh (collectCalls (some σ) parts)












/-- Whether a handler value is an ordinary (plain) function: invoking such a
handler neither mutates the trie nor throws. -/
def isPlain : HVal → Bool
  | .plain _ => true
  | _ => false

/-- Specification-level helper: the chain of trie nodes produced by
registering along a purely literal path, ending in a given terminal node. -/
def litChain : List String → EventEntry → EventEntry
  | [], t => t
  | s :: ps, t => .mk [(s, litChain ps t)] [] [] none

/-- The invariant claimed of the trie: no node's `children` map has the
wildcard token or the double-wildcard token as a key, at any depth (including
inside wildcard children). -/
inductive WFTrie (wc dw : String) : EventEntry → Prop where
  | mk : ∀ cs hs bs al,
      (∀ k c, (k, c) ∈ cs → k ≠ wc ∧ k ≠ dw) →
      (∀ k c, (k, c) ∈ cs → WFTrie wc dw c) →
      (∀ a, al = some a → WFTrie wc dw a) →
      WFTrie wc dw (.mk cs hs bs al)

/-! ## Claim theorems -/

/-- C1 counterexample: registering `"a.**"` also appends the handler to the
exact `handlers` bucket of the node `a`, and registering `"a.**.b"` consumes
the segment after the double-wildcard, landing the handler in the `handlers`
bucket of the node `a.b` — contradicting that the walk stops at the
double-wildcard and that the handler reaches no exact `handlers` bucket. -/
theorem on_doubleWildcard_not_terminal_cex :
    (nodeAtLit (onStr "a.**" (.plain 0) emptyEntry) ["a"]).map
        EventEntry.handlers = some [.plain 0] ∧
    (nodeAtLit (onStr "a.**.b" (.plain 0) emptyEntry) ["a", "b"]).map
        EventEntry.handlers = some [.plain 0] := by decide

set_option maxHeartbeats 2000000 in
/-- C2: a handler registered once on `"a.**"` is invoked exactly once by each
of `emit("a")`, `emit("a.b")` and `emit("a.b.c")`. -/
theorem below_wildcard_matches_self_and_descendants (k : Nat) :
    (emitStr (onStr "a.**" (.plain k) emptyEntry) "a").2.1 = [.plain k] ∧
    (emitStr (onStr "a.**" (.plain k) emptyEntry) "a.b").2.1 = [.plain k] ∧
    (emitStr (onStr "a.**" (.plain k) emptyEntry) "a.b.c").2.1 =
      [.plain k] :=
  ⟨rfl, rfl, rfl⟩

set_option maxHeartbeats 2000000 in
/-- C3: with H1 then H2 registered into the same below-wildcard bucket,
`emit` of a deeper matching event calls H2 before H1 (the eager path iterates
the bucket backward) while `emitAsyncSequential` awaits H1 before H2 (the
collect path iterates it forward). -/
theorem below_bucket_order_emit_reversed_seq_forward (k1 k2 : Nat) :
    (emitStr (onStr "a.**" (.plain k2) (onStr "a.**" (.plain k1) emptyEntry))
        "a.b").2.1 = [.plain k2, .plain k1] ∧
    (Events.emitAsyncSequential (fun _ => .ok ())
        (onStr "a.**" (.plain k2) (onStr "a.**" (.plain k1) emptyEntry))
        (splitName "a.b")).1 = [.plain k1, .plain k2] :=
  ⟨rfl, rfl⟩

set_option maxHeartbeats 2000000 in
/-- C4: a handler on `"a.*.c"` fires for `emit("a.x.c")` and `emit("a.y.c")`
but not for `emit("a.x.y.c")` or `emit("a.c")`. -/
theorem single_wildcard_matches_exactly_one_segment (k : Nat) :
    (emitStr (onStr "a.*.c" (.plain k) emptyEntry) "a.x.c").2.1 =
      [.plain k] ∧
    (emitStr (onStr "a.*.c" (.plain k) emptyEntry) "a.y.c").2.1 =
      [.plain k] ∧
    (emitStr (onStr "a.*.c" (.plain k) emptyEntry) "a.x.y.c").2.1 = [] ∧
    (emitStr (onStr "a.*.c" (.plain k) emptyEntry) "a.c").2.1 = [] :=
  ⟨rfl, rfl, rfl, rfl⟩

/-- C5 (bug witness): after `once("**.*.**", h)`, the first
`emit("**.*.**")` invokes the wrapper (and hence the handler) twice — the
wrapper's `off` only removes the copy in the root's below bucket — and the
second `emit("**.*.**")` invokes it again: `off` looks only at the first
double-wildcard bucket, where the wrapper no longer is, so the copy in the
wildcard child's below bucket survives forever. -/
theorem once_reinvoked_on_second_emit_bug :
    (emitStr (Events.once "*" (splitName "**.*.**") (some 0) emptyEntry)
        "**.*.**").2.1 =
      [.wrapper ["**", "*", "**"] (some 0),
        .wrapper ["**", "*", "**"] (some 0)] ∧
    (emitStr
        (emitStr (Events.once "*" (splitName "**.*.**") (some 0) emptyEntry)
            "**.*.**").1
        "**.*.**").2.1 = [.wrapper ["**", "*", "**"] (some 0)] := by decide

/-- C6 counterexample: `off("*", h)` on an empty dispatcher creates the
root's wildcard child — the trie does not remain unchanged. -/
theorem off_missing_wildcard_creates_node_cex :
    (offStr "*" (some (.plain 0)) emptyEntry).allChild.isSome = true := by
  decide

/-- C6 amended: an `off` walk meeting a single-wildcard segment where no
wildcard child exists does not stop early: it creates an empty wildcard child
and continues inside it (still removing nothing, since the new subtree is
empty). -/
theorem off_wildcard_descends_creating_node (ps : List String)
    (h? : Option HVal) :
    Events.off "*" ("*" :: ps) h? emptyEntry =
      .mk [] [] [] (some (Events.off "*" ps h? emptyEntry)) := rfl

/-- The await loop of `emitAsyncSequential` runs an all-resolving prefix in
order and continues with the rest. -/
theorem runSeq_ok_front (beh : HVal → Except String Unit) (l1 l2 : List HVal)
    (hok : ∀ x ∈ l1, beh x = .ok ()) :
    runSeq beh (l1 ++ l2) = (l1 ++ (runSeq beh l2).1, (runSeq beh l2).2) := by
  induction l1 with
  | nil => simp
  | cons x xs ih =>
      have hx : beh x = .ok () := hok x (by simp)
      simp [runSeq, hx, ih (fun y hy => hok y (by simp [hy]))]

/-- C7: in `emitAsyncSequential` the collected handlers are awaited one at a
time in collected order, and the first rejection aborts the sequence: the
rejection propagates and no later handler in the collected list is invoked. -/
theorem emitAsyncSequential_first_rejection_aborts
    (beh : HVal → Except String Unit) (σ : EventEntry) (parts : List String)
    (l1 l2 : List HVal) (b : HVal) (msg : String)
    (hdec : collectCalls (some σ) parts = l1 ++ b :: l2)
    (hok : ∀ x ∈ l1, beh x = .ok ())
    (hb : beh b = .error msg) :
    Events.emitAsyncSequential beh σ parts = (l1 ++ [b], .error msg) := by
  unfold Events.emitAsyncSequential
  rw [hdec, runSeq_ok_front beh l1 (b :: l2) hok]
  simp [runSeq, hb]

/-- Witness for C7: three handlers collected on `"x"`, the second rejecting:
the first two are invoked, the rejection propagates, the third never runs. -/
theorem emitAsyncSequential_first_rejection_aborts_witness :
    Events.emitAsyncSequential
        (fun h => if h = .plain 2 then .error "boom" else .ok ())
        (onStr "x" (.plain 3)
          (onStr "x" (.plain 2) (onStr "x" (.plain 1) emptyEntry)))
        (splitName "x") = ([.plain 1, .plain 2], .error "boom") :=
  emitAsyncSequential_first_rejection_aborts _ _ _ [.plain 1] [.plain 3]
    (.plain 2) "boom" (by decide) (by intro x hx; simp at hx; subst hx; rfl)
    rfl

/-- The empty entry satisfies the no-wildcard-keys invariant. -/
theorem wf_emptyEntry (wc dw : String) : WFTrie wc dw emptyEntry :=
  .mk [] [] [] none (by intro k c hm; cases hm) (by intro k c hm; cases hm)
    (by intro a ha; exact Option.noConfusion ha)

/-- The invariant only constrains `children` and the wildcard child, not the
handler buckets. -/
theorem wf_buckets {wc dw : String} {cs hs bs al} (hs1 : List HVal)
    (bs1 : List HVal) (hwf : WFTrie wc dw (.mk cs hs bs al)) :
    WFTrie wc dw (.mk cs hs1 bs1 al) := by
  cases hwf with
  | mk _ _ _ _ hkeys hsub hal => exact .mk _ _ _ _ hkeys hsub hal

/-- Every element of an updated children map is the new binding or an old
element. -/
theorem mem_setChild {k : String} {v : EventEntry} {x : String × EventEntry} :
    ∀ {cs : List (String × EventEntry)},
      x ∈ setChild k v cs → x = (k, v) ∨ x ∈ cs := by
  intro cs
  induction cs with
  | nil => intro hm; simp [setChild] at hm; exact Or.inl hm
  | cons p rest ih =>
      obtain ⟨k1, v1⟩ := p
      simp only [setChild]
      by_cases hk : k1 = k
      · subst hk
        simp only [if_pos rfl]
        intro hm
        rcases List.mem_cons.1 hm with h | h
        · exact Or.inl (by simpa using h)
        · exact Or.inr (List.mem_cons_of_mem _ h)
      · simp only [if_neg hk]
        intro hm
        rcases List.mem_cons.1 hm with h | h
        · exact Or.inr (h ▸ List.mem_cons_self _ _)
        · rcases ih h with h1 | h1
          · exact Or.inl h1
          · exact Or.inr (List.mem_cons_of_mem _ h1)

/-- A successful children lookup is a member of the map. -/
theorem findChild_mem {k : String} {c : EventEntry} :
    ∀ {cs : List (String × EventEntry)},
      findChild k cs = some c → (k, c) ∈ cs := by
  intro cs
  induction cs with
  | nil => intro hm; exact Option.noConfusion hm
  | cons p rest ih =>
      obtain ⟨k1, v1⟩ := p
      simp only [findChild]
      by_cases hk : k1 = k
      · subst hk
        simp only [if_pos rfl]
        intro hm
        cases hm
        exact List.mem_cons_self _ _
      · simp only [if_neg hk]
        intro hm
        exact List.mem_cons_of_mem _ (ih hm)

/-- The registration walk preserves the no-wildcard-keys invariant. -/
theorem wf_onWalk (wc : String) (h : HVal) :
    ∀ (ps : List String) (e : EventEntry), WFTrie wc (wc ++ wc) e →
      WFTrie wc (wc ++ wc) (Events.onWalk wc (wc ++ wc) h ps e) := by
  intro ps
  induction ps with
  | nil =>
      intro e hwf
      cases e with
      | mk cs hs bs al => exact wf_buckets _ _ hwf
  | cons p ps ih =>
      intro e hwf
      cases e with
      | mk cs hs bs al =>
      cases hwf with
      | mk _ _ _ _ hkeys hsub hal =>
      by_cases hpw : p = wc
      · simp only [Events.onWalk, if_pos hpw]
        refine .mk _ _ _ _ hkeys hsub ?_
        intro a ha
        cases ha
        apply ih
        cases al with
        | none => exact wf_emptyEntry wc (wc ++ wc)
        | some a0 => exact hal a0 rfl
      · by_cases hpd : p = wc ++ wc
        · simp only [Events.onWalk, if_neg hpw, if_pos hpd]
          exact ih _ (.mk _ _ _ _ hkeys hsub hal)
        · simp only [Events.onWalk, if_neg hpw, if_neg hpd]
          refine .mk _ _ _ _ ?_ ?_ hal
          · intro k c hm
            rcases mem_setChild hm with he | hm1
            · cases he
              exact ⟨hpw, hpd⟩
            · exact hkeys _ _ hm1
          · intro k c hm
            rcases mem_setChild hm with he | hm1
            · cases he
              apply ih
              cases hf : findChild p cs with
              | none => simp only [hf, Option.getD]; exact wf_emptyEntry _ _
              | some c0 =>
                  simp only [hf, Option.getD]
                  exact hsub _ _ (findChild_mem hf)
            · exact hsub _ _ hm1

/-- The removal walk preserves the no-wildcard-keys invariant. -/
theorem wf_offWalk (wc : String) (h? : Option HVal) :
    ∀ (ps : List String) (e : EventEntry), WFTrie wc (wc ++ wc) e →
      WFTrie wc (wc ++ wc) (Events.offWalk wc (wc ++ wc) h? ps e) := by
  intro ps
  induction ps with
  | nil =>
      intro e hwf
      cases e with
      | mk cs hs bs al =>
          cases h? with
          | none => exact wf_buckets _ _ hwf
          | some h0 => exact wf_buckets _ _ hwf
  | cons p ps ih =>
      intro e hwf
      cases e with
      | mk cs hs bs al =>
      cases hwf with
      | mk _ _ _ _ hkeys hsub hal =>
      by_cases hpw : p = wc
      · simp only [Events.offWalk, if_pos hpw]
        refine .mk _ _ _ _ hkeys hsub ?_
        intro a ha
        cases ha
        apply ih
        cases al with
        | none => exact wf_emptyEntry wc (wc ++ wc)
        | some a0 => exact hal a0 rfl
      · by_cases hpd : p = wc ++ wc
        · simp only [Events.offWalk, if_neg hpw, if_pos hpd]
          cases h? with
          | none => exact .mk _ _ _ _ hkeys hsub hal
          | some h0 => exact .mk _ _ _ _ hkeys hsub hal
        · simp only [Events.offWalk, if_neg hpw, if_neg hpd]
          cases hf : findChild p cs with
          | none => exact .mk _ _ _ _ hkeys hsub hal
          | some c0 =>
              refine .mk _ _ _ _ ?_ ?_ hal
              · intro k c hm
                rcases mem_setChild hm with he | hm1
                · cases he
                  exact ⟨hpw, hpd⟩
                · exact hkeys _ _ hm1
              · intro k c hm
                rcases mem_setChild hm with he | hm1
                · cases he
                  exact ih _ (hsub _ _ (findChild_mem hf))
                · exact hsub _ _ hm1

/-- C8: every operation of the dispatcher — `on` (and its aliases), `once`,
`off`, `removeAllListeners` — preserves the invariant that no node's
`children` map has the wildcard token or the double-wildcard token as a key:
those segments are routed to the wildcard child and the `allBelow` bucket. -/
theorem trie_ops_never_store_wildcard_keys (wc : String)
    (parts : List String) (h : HVal) (h? : Option HVal) (inner : Option Nat)
    (σ : EventEntry) (hwf : WFTrie wc (wc ++ wc) σ) :
    WFTrie wc (wc ++ wc) (Events.addListener wc parts h σ) ∧
    WFTrie wc (wc ++ wc) (Events.once wc parts inner σ) ∧
    WFTrie wc (wc ++ wc) (Events.off wc parts h? σ) ∧
    WFTrie wc (wc ++ wc) (Events.removeAllListeners σ) := by
  refine ⟨?_, ?_, wf_offWalk wc h? parts σ hwf, wf_emptyEntry wc (wc ++ wc)⟩
  · unfold Events.addListener
    cases truthy h with
    | false => simpa using hwf
    | true => simpa using wf_onWalk wc h parts σ hwf
  · unfold Events.once Events.addListener
    simpa [truthy] using wf_onWalk wc (.wrapper parts inner) parts σ hwf

/-- Witness for C8: the invariant holds of the empty trie and is preserved by
a concrete registration of `"a.*"`. -/
theorem trie_ops_never_store_wildcard_keys_witness :
    WFTrie "*" ("*" ++ "*")
      (Events.addListener "*" ["a", "*"] (.plain 0) emptyEntry) :=
  (trie_ops_never_store_wildcard_keys "*" ["a", "*"] (.plain 0) none none
      emptyEntry (wf_emptyEntry "*" ("*" ++ "*"))).1

/-- Path resolution composes. -/
theorem nodeAt_append (π π' : List PathStep) :
    ∀ e : EventEntry,
      nodeAt e (π ++ π') = (nodeAt e π).bind (fun x => nodeAt x π') := by
  induction π with
  | nil => intro e; simp [nodeAt]
  | cons s π ih =>
      intro e
      cases s with
      | child str =>
          cases e with
          | mk cs hs bs al =>
              simp only [List.cons_append, nodeAt, EventEntry.children]
              cases findChild str cs with
              | none => simp
              | some c => simpa using ih c
      | all =>
          cases e with
          | mk cs hs bs al =>
              simp only [List.cons_append, nodeAt, EventEntry.allChild]
              cases al with
              | none => simp
              | some a => simpa using ih a

/-- Extending a resolved path into the wildcard child. -/
theorem nodeAt_all {σ : EventEntry} {π : List PathStep} {e : EventEntry}
    (h : nodeAt σ π = some e) : nodeAt σ (π ++ [.all]) = e.allChild := by
  rw [nodeAt_append, h]
  cases e with
  | mk cs hs bs al =>
      cases al with
      | none => simp [nodeAt, EventEntry.allChild]
      | some a => simp [nodeAt, EventEntry.allChild]

/-- Extending a resolved path into a literal child. -/
theorem nodeAt_child {σ : EventEntry} {π : List PathStep} {e : EventEntry}
    (h : nodeAt σ π = some e) (p : String) :
    nodeAt σ (π ++ [.child p]) = findChild p e.children := by
  rw [nodeAt_append, h]
  cases e with
  | mk cs hs bs al =>
      simp only [Option.bind, nodeAt, EventEntry.children]
      cases findChild p cs with
      | none => rfl
      | some c => simp [nodeAt]

/-- A below loop over a bucket with no truthy entry calls nothing and leaves
the state alone. -/
theorem fireBelow_none (σ : EventEntry) (π : List PathStep)
    (hnone : ∀ x ∈ allBelowAt σ π, truthy x = false) :
    ∀ i, fireBelow σ π i = (σ, [], false) := by
  intro i
  induction i with
  | zero => rfl
  | succ i ih =>
      simp only [fireBelow]
      cases hx : (allBelowAt σ π)[i]? with
      | none => exact ih
      | some x =>
          have hmem : x ∈ allBelowAt σ π := by
            obtain ⟨hlt, he⟩ := List.getElem?_eq_some.1 hx
            exact he ▸ List.getElem_mem hlt
          simp [hnone x hmem, ih]

/-- A handlers loop over a bucket with no truthy entry calls nothing and
leaves the state alone. -/
theorem fireHandlers_none (σ : EventEntry) (π : List PathStep)
    (hnone : ∀ x ∈ handlersAt σ π, truthy x = false) :
    ∀ (fuel i : Nat), fireHandlers σ π i fuel = (σ, [], false) := by
  intro fuel
  induction fuel with
  | zero => intro i; rfl
  | succ fuel ih =>
      intro i
      simp only [fireHandlers]
      cases hx : (handlersAt σ π)[i]? with
      | none => exact ih (i + 1)
      | some x =>
          have hmem : x ∈ handlersAt σ π := by
            obtain ⟨hlt, he⟩ := List.getElem?_eq_some.1 hx
            exact he ▸ List.getElem_mem hlt
          simp [hnone x hmem, ih]

/-- Invoking a plain handler records the call, leaves the trie alone and does
not throw. -/
theorem invoke_plain (σ : EventEntry) (k : Nat) :
    invoke σ (.plain k) = (σ, [.plain k], false) := rfl

/-- A below loop over a bucket whose truthy entries are all plain functions
calls exactly the truthy entries of the scanned prefix, last index first, and
leaves the state alone. -/
theorem fireBelow_benign (σ : EventEntry) (π : List PathStep)
    (hb : ∀ x ∈ allBelowAt σ π, isPlain x = true ∨ truthy x = false) :
    ∀ i, fireBelow σ π i =
      (σ, ((allBelowAt σ π).take i).reverse.filter truthy, false) := by
  intro i
  induction i with
  | zero => simp [fireBelow]
  | succ i ih =>
      simp only [fireBelow]
      cases hx : (allBelowAt σ π)[i]? with
      | none =>
          have hlen : (allBelowAt σ π).length ≤ i :=
            List.getElem?_eq_none_iff.1 hx
          rw [ih, List.take_of_length_le hlen,
            List.take_of_length_le (le_trans hlen (Nat.le_succ i))]
      | some x =>
          have hmem : x ∈ allBelowAt σ π := by
            obtain ⟨hlt, he⟩ := List.getElem?_eq_some.1 hx
            exact he ▸ List.getElem_mem hlt
          have htk : (allBelowAt σ π).take (i + 1) =
              (allBelowAt σ π).take i ++ [x] := by
            rw [List.take_succ, hx]
            rfl
          rcases hb x hmem with hpl | hfa
          · cases x with
            | plain k =>
                simp only [truthy, if_pos, invoke_plain, ih]
                simp [htk, List.filter_append, truthy]
            | wrapper nm inner => simp [isPlain] at hpl
            | falsy => simp [isPlain] at hpl
          · simp only [hfa, Bool.false_eq_true, if_neg, ih]
            simp [htk, List.filter_append, hfa]

/-- A handlers loop over a bucket whose truthy entries are all plain functions
calls exactly the truthy entries of the scanned window, in order, and leaves
the state alone. -/
theorem fireHandlers_benign (σ : EventEntry) (π : List PathStep)
    (hb : ∀ x ∈ handlersAt σ π, isPlain x = true ∨ truthy x = false) :
    ∀ (fuel i : Nat), fireHandlers σ π i fuel =
      (σ, (((handlersAt σ π).drop i).take fuel).filter truthy, false) := by
  intro fuel
  induction fuel with
  | zero => intro i; simp [fireHandlers]
  | succ fuel ih =>
      intro i
      simp only [fireHandlers]
      cases hx : (handlersAt σ π)[i]? with
      | none =>
          have hlen : (handlersAt σ π).length ≤ i :=
            List.getElem?_eq_none_iff.1 hx
          rw [ih (i + 1), List.drop_eq_nil_of_le hlen,
            List.drop_eq_nil_of_le (le_trans hlen (Nat.le_succ i))]
          simp
      | some x =>
          obtain ⟨hlt, he⟩ := List.getElem?_eq_some.1 hx
          have hmem : x ∈ handlersAt σ π := he ▸ List.getElem_mem hlt
          have hdrop : (handlersAt σ π).drop i =
              x :: (handlersAt σ π).drop (i + 1) := by
            rw [List.drop_eq_getElem_cons hlt, he]
          rcases hb x hmem with hpl | hfa
          · cases x with
            | plain k =>
                simp only [truthy, if_pos, invoke_plain, ih (i + 1)]
                simp [hdrop, truthy]
            | wrapper nm inner => simp [isPlain] at hpl
            | falsy => simp [isPlain] at hpl
          · simp only [hfa, Bool.false_eq_true, if_neg, ih (i + 1)]
            simp [hdrop, hfa]

/-- If the first truthy entry met by the backward below scan throws when
invoked, the loop's result is exactly that invocation. -/
theorem fireBelow_firstThrow (σ : EventEntry) (π : List PathStep) (h : HVal)
    (hthrow : (invoke σ h).2.2 = true) :
    ∀ (i : Nat) (t : List HVal),
      ((allBelowAt σ π).take i).reverse.filter truthy = h :: t →
      fireBelow σ π i = invoke σ h := by
  intro i
  induction i with
  | zero => intro t ht; simp at ht
  | succ i ih =>
      intro t ht
      simp only [fireBelow]
      cases hx : (allBelowAt σ π)[i]? with
      | none =>
          have hlen : (allBelowAt σ π).length ≤ i :=
            List.getElem?_eq_none_iff.1 hx
          rw [List.take_of_length_le (le_trans hlen (Nat.le_succ i)),
            ← List.take_of_length_le hlen] at ht
          exact ih t ht
      | some x =>
          have htk : (allBelowAt σ π).take (i + 1) =
              (allBelowAt σ π).take i ++ [x] := by
            rw [List.take_succ, hx]
            rfl
          rw [htk, List.reverse_append, List.reverse_singleton,
            List.singleton_append] at ht
          cases htr : truthy x with
          | false =>
              rw [List.filter_cons_of_neg (by simp [htr])] at ht
              simp only [htr, Bool.false_eq_true, if_neg]
              exact ih t ht
          | true =>
              rw [List.filter_cons_of_pos htr] at ht
              injection ht with hxh hrest
              subst hxh
              simp [htr, hthrow]

/-- Dual of `fireBelow_firstThrow` for the forward terminal handlers scan. -/
theorem fireHandlers_firstThrow (σ : EventEntry) (π : List PathStep)
    (h : HVal) (hthrow : (invoke σ h).2.2 = true) :
    ∀ (fuel i : Nat) (t : List HVal),
      (((handlersAt σ π).drop i).take fuel).filter truthy = h :: t →
      fireHandlers σ π i fuel = invoke σ h := by
  intro fuel
  induction fuel with
  | zero => intro i t ht; simp at ht
  | succ fuel ih =>
      intro i t ht
      simp only [fireHandlers]
      cases hx : (handlersAt σ π)[i]? with
      | none =>
          have hlen : (handlersAt σ π).length ≤ i :=
            List.getElem?_eq_none_iff.1 hx
          rw [List.drop_eq_nil_of_le hlen] at ht
          simp at ht
      | some x =>
          obtain ⟨hlt, he⟩ := List.getElem?_eq_some.1 hx
          have hdrop : (handlersAt σ π).drop i =
              x :: (handlersAt σ π).drop (i + 1) := by
            rw [List.drop_eq_getElem_cons hlt, he]
          rw [hdrop, List.take_succ_cons] at ht
          cases htr : truthy x with
          | false =>
              rw [List.filter_cons_of_neg (by simp [htr])] at ht
              simp only [htr, Bool.false_eq_true, if_neg]
              exact ih (i + 1) t ht
          | true =>
              rw [List.filter_cons_of_pos htr] at ht
              injection ht with hxh hrest
              subst hxh
              simp [htr, hthrow]

/-- A walk whose eager call list is empty invokes nothing and leaves the
state alone. -/
theorem emitWalk_pureNil :
    ∀ (ps : List String) (σ : EventEntry) (π : List PathStep),
      pureCalls (nodeAt σ π) ps = [] → emitWalk σ π ps = (σ, [], false) := by
  intro ps
  induction ps with
  | nil =>
      intro σ π hp
      simp only [emitWalk]
      cases hn : nodeAt σ π with
      | none => rfl
      | some e =>
          rw [hn] at hp
          simp only [pureCalls] at hp
          have hno : ∀ x ∈ handlersAt σ π, truthy x = false := by
            intro x hx
            have hx2 : x ∈ e.handlers := by
              simpa [handlersAt, hn] using hx
            simpa using List.filter_eq_nil_iff.1 hp x hx2
          exact fireHandlers_none σ π hno _ 0
  | cons p ps ih =>
      intro σ π hp
      simp only [emitWalk]
      cases hn : nodeAt σ π with
      | none => rfl
      | some e =>
          rw [hn] at hp
          simp only [pureCalls] at hp
          rcases List.append_eq_nil.1 hp with ⟨hp12, hp3⟩
          rcases List.append_eq_nil.1 hp12 with ⟨hp1, hp2⟩
          have hno : ∀ x ∈ allBelowAt σ π, truthy x = false := by
            intro x hx
            have hx2 : x ∈ e.allBelow.reverse := by
              rw [List.mem_reverse]
              simpa [allBelowAt, hn] using hx
            simpa using List.filter_eq_nil_iff.1 hp1 x hx2
          have hfb := fireBelow_none σ π hno e.allBelow.length
          have hrec3 : emitWalk σ (π ++ [.child p]) ps = (σ, [], false) := by
            apply ih
            rw [nodeAt_child hn]
            exact hp3
          cases hal : e.allChild with
          | some a =>
              have h2 : pureCalls (some a) ps = [] := by
                simpa [hal] using hp2
              have hcond :
                  ((nodeAt σ π).map (fun n => n.allChild.isSome)).getD false =
                    true := by
                rw [hn]
                simp [hal]
              have hrec2 : emitWalk σ (π ++ [.all]) ps = (σ, [], false) := by
                apply ih
                rw [nodeAt_all hn, hal]
                exact h2
              simp [hfb, hcond, hrec2, hrec3]
          | none =>
              have hcond :
                  ((nodeAt σ π).map (fun n => n.allChild.isSome)).getD false =
                    false := by
                rw [hn]
                simp [hal]
              simp [hfb, hcond, hrec3]

/-- If the head of the eager call list throws when invoked, the whole walk
returns exactly that invocation: the handlers before it (there are none) and
after it never run, and the exception propagates. -/
theorem emitWalk_firstThrow :
    ∀ (ps : List String) (σ : EventEntry) (π : List PathStep) (h : HVal)
      (t : List HVal),
      pureCalls (nodeAt σ π) ps = h :: t → (invoke σ h).2.2 = true →
      emitWalk σ π ps = invoke σ h := by
  intro ps
  induction ps with
  | nil =>
      intro σ π h t hp hth
      simp only [emitWalk]
      cases hn : nodeAt σ π with
      | none => rw [hn] at hp; simp [pureCalls] at hp
      | some e =>
          rw [hn] at hp
          simp only [pureCalls] at hp
          apply fireHandlers_firstThrow σ π h hth e.handlers.length 0 t
          rw [List.drop_zero]
          have hlist : handlersAt σ π = e.handlers := by
            simp [handlersAt, hn]
          rw [hlist, List.take_length]
          exact hp
  | cons p ps ih =>
      intro σ π h t hp hth
      simp only [emitWalk]
      cases hn : nodeAt σ π with
      | none => rw [hn] at hp; simp [pureCalls] at hp
      | some e =>
          rw [hn] at hp
          simp only [pureCalls] at hp
          have hlist : allBelowAt σ π = e.allBelow := by
            simp [allBelowAt, hn]
          cases hA : e.allBelow.reverse.filter truthy with
          | cons h1 t1 =>
              rw [hA] at hp
              have hh : h1 = h := by
                simpa using congrArg List.head? hp
              subst hh
              have hfb :=
                fireBelow_firstThrow σ π h1 hth e.allBelow.length t1
                  (by rw [hlist, List.take_length]; exact hA)
              simp [hfb, hth]
          | nil =>
              rw [hA, List.nil_append] at hp
              have hno : ∀ x ∈ allBelowAt σ π, truthy x = false := by
                intro x hx
                have hx2 : x ∈ e.allBelow.reverse := by
                  rw [List.mem_reverse]
                  simpa [hlist] using hx
                simpa using List.filter_eq_nil_iff.1 hA x hx2
              have hfb := fireBelow_none σ π hno e.allBelow.length
              cases hal : e.allChild with
              | some a =>
                  have hcond :
                      ((nodeAt σ π).map
                          (fun n => n.allChild.isSome)).getD false = true := by
                    rw [hn]
                    simp [hal]
                  simp only [hal] at hp
                  cases hB : pureCalls (some a) ps with
                  | cons h2 t2 =>
                      rw [hB] at hp
                      have hh : h2 = h := by
                        simpa using congrArg List.head? hp
                      subst hh
                      have hrec2 : emitWalk σ (π ++ [PathStep.all]) ps =
                          invoke σ h2 :=
                        ih σ (π ++ [PathStep.all]) h2 t2
                          (by rw [nodeAt_all hn, hal]; exact hB) hth
                      have heta : ((invoke σ h2).1, (invoke σ h2).2.1, true) =
                          invoke σ h2 := by rw [← hth]
                      simp [hfb, hcond, hrec2, hth, heta]
                  | nil =>
                      rw [hB, List.nil_append] at hp
                      have hrec2 : emitWalk σ (π ++ [PathStep.all]) ps =
                          (σ, [], false) :=
                        emitWalk_pureNil ps σ (π ++ [PathStep.all])
                          (by rw [nodeAt_all hn, hal]; exact hB)
                      have hrec3 : emitWalk σ (π ++ [PathStep.child p]) ps =
                          invoke σ h :=
                        ih σ (π ++ [PathStep.child p]) h t
                          (by rw [nodeAt_child hn]; exact hp) hth
                      simp [hfb, hcond, hrec2, hrec3]
              | none =>
                  have hcond :
                      ((nodeAt σ π).map
                          (fun n => n.allChild.isSome)).getD false = false := by
                    rw [hn]
                    simp [hal]
                  simp only [hal, List.nil_append] at hp
                  have hrec3 : emitWalk σ (π ++ [PathStep.child p]) ps =
                      invoke σ h :=
                    ih σ (π ++ [PathStep.child p]) h t
                      (by rw [nodeAt_child hn]; exact hp) hth
                  simp [hfb, hcond, hrec3]

/-- A walk all of whose eagerly called handlers are plain functions performs
exactly the pure call list, in order, without mutating the trie or
throwing. -/
theorem emitWalk_benign :
    ∀ (ps : List String) (σ : EventEntry) (π : List PathStep),
      (∀ x ∈ pureCalls (nodeAt σ π) ps, isPlain x = true) →
      emitWalk σ π ps = (σ, pureCalls (nodeAt σ π) ps, false) := by
  intro ps
  induction ps with
  | nil =>
      intro σ π hb
      simp only [emitWalk]
      cases hn : nodeAt σ π with
      | none => simp [pureCalls]
      | some e =>
          rw [hn] at hb
          have hben : ∀ x ∈ handlersAt σ π,
              isPlain x = true ∨ truthy x = false := by
            intro x hx
            have hx2 : x ∈ e.handlers := by
              simpa [handlersAt, hn] using hx
            by_cases ht : truthy x = true
            · exact Or.inl (hb x (by
                simp only [pureCalls]
                exact List.mem_filter.2 ⟨hx2, ht⟩))
            · exact Or.inr (by simpa using ht)
          have hfh := fireHandlers_benign σ π hben e.handlers.length 0
          have hlist : handlersAt σ π = e.handlers := by
            simp [handlersAt, hn]
          rw [List.drop_zero, hlist, List.take_length] at hfh
          exact hfh.trans (by simp [pureCalls])
  | cons p ps ih =>
      intro σ π hb
      simp only [emitWalk]
      cases hn : nodeAt σ π with
      | none => simp [pureCalls]
      | some e =>
          rw [hn] at hb
          simp only [pureCalls] at hb ⊢
          have hlist : allBelowAt σ π = e.allBelow := by
            simp [allBelowAt, hn]
          have hbenB : ∀ x ∈ allBelowAt σ π,
              isPlain x = true ∨ truthy x = false := by
            intro x hx
            have hx2 : x ∈ e.allBelow.reverse := by
              rw [List.mem_reverse]
              simpa [hlist] using hx
            by_cases ht : truthy x = true
            · exact Or.inl (hb x (List.mem_append_left _
                (List.mem_append_left _ (List.mem_filter.2 ⟨hx2, ht⟩))))
            · exact Or.inr (by simpa using ht)
          have hfb := fireBelow_benign σ π hbenB e.allBelow.length
          rw [hlist, List.take_length] at hfb
          have hb3 : ∀ x ∈ pureCalls (nodeAt σ (π ++ [PathStep.child p])) ps,
              isPlain x = true := by
            rw [nodeAt_child hn]
            intro x hx
            exact hb x (List.mem_append_right _ hx)
          have hrec3 := ih σ (π ++ [PathStep.child p]) hb3
          rw [nodeAt_child hn] at hrec3
          cases hal : e.allChild with
          | some a =>
              have hcond :
                  ((nodeAt σ π).map (fun n => n.allChild.isSome)).getD false =
                    true := by
                rw [hn]
                simp [hal]
              have hb2 : ∀ x ∈ pureCalls (nodeAt σ (π ++ [PathStep.all])) ps,
                  isPlain x = true := by
                rw [nodeAt_all hn, hal]
                intro x hx
                refine hb x (List.mem_append_left _
                  (List.mem_append_right _ ?_))
                simp [hal]
                exact hx
              have hrec2 := ih σ (π ++ [PathStep.all]) hb2
              rw [nodeAt_all hn, hal] at hrec2
              simp [hfb, hcond, hrec2, hrec3, hal]
          | none =>
              have hcond :
                  ((nodeAt σ π).map (fun n => n.allChild.isSome)).getD false =
                    false := by
                rw [hn]
                simp [hal]
              simp [hfb, hcond, hrec3, hal]

/-- Registering along a wildcard-free prefix builds a literal chain on a
fresh trie, with the rest of the walk continuing at its end. -/
theorem onWalk_chain_of_literals (h : HVal) (rest : List String) :
    ∀ (pre : List String), (∀ s ∈ pre, s ≠ "*" ∧ s ≠ "**") →
      Events.onWalk "*" "**" h (pre ++ rest) emptyEntry =
        litChain pre (Events.onWalk "*" "**" h rest emptyEntry) := by
  intro pre
  induction pre with
  | nil => intro _; simp [litChain]
  | cons s pre ih =>
      intro hwf
      have hs := hwf s (List.mem_cons_self _ _)
      have hnode : Events.onWalk "*" "**" h ((s :: pre) ++ rest) emptyEntry =
          EventEntry.mk
            [(s, Events.onWalk "*" "**" h (pre ++ rest) emptyEntry)]
            [] [] none := by
        simp only [List.cons_append, Events.onWalk, emptyEntry, if_neg hs.1,
          if_neg hs.2]
        rw [show findChild s ([] : List (String × EventEntry)) = none
          from rfl]
        simp [setChild, emptyEntry]
      rw [hnode, ih (fun x hx => hwf x (List.mem_cons_of_mem _ hx))]
      simp [litChain]

/-- Removing along a wildcard-free prefix of an existing literal chain edits
the chain's end in place. -/
theorem offWalk_chain_of_literals (h? : Option HVal) (rest : List String)
    (T : EventEntry) :
    ∀ (pre : List String), (∀ s ∈ pre, s ≠ "*" ∧ s ≠ "**") →
      Events.offWalk "*" "**" h? (pre ++ rest) (litChain pre T) =
        litChain pre (Events.offWalk "*" "**" h? rest T) := by
  intro pre
  induction pre with
  | nil => intro _; simp [litChain]
  | cons s pre ih =>
      intro hwf
      have hs := hwf s (List.mem_cons_self _ _)
      have hnode : Events.offWalk "*" "**" h? ((s :: pre) ++ rest)
          (litChain (s :: pre) T) =
          EventEntry.mk
            [(s, Events.offWalk "*" "**" h? (pre ++ rest) (litChain pre T))]
            [] [] none := by
        simp only [litChain, List.cons_append, Events.offWalk, if_neg hs.1,
          if_neg hs.2]
        rw [show findChild s [(s, litChain pre T)] =
          some (litChain pre T) from by simp [findChild]]
        simp [setChild]
      rw [hnode, ih (fun x hx => hwf x (List.mem_cons_of_mem _ hx))]
      simp [litChain]

/-- Resolving a literal chain along its own path finds its terminal node. -/
theorem nodeAtLit_litChain (T : EventEntry) :
    ∀ pre : List String, nodeAtLit (litChain pre T) pre = some T := by
  intro pre
  induction pre with
  | nil => simp [litChain, nodeAtLit]
  | cons s pre ih =>
      simp [litChain, nodeAtLit, findChild, EventEntry.children, ih]

/-- Literal path resolution composes. -/
theorem nodeAtLit_append (xs ys : List String) :
    ∀ e : EventEntry, nodeAtLit e (xs ++ ys) =
      (nodeAtLit e xs).bind (fun x => nodeAtLit x ys) := by
  induction xs with
  | nil => intro e; simp [nodeAtLit]
  | cons s xs ih =>
      intro e
      simp only [List.cons_append, nodeAtLit]
      cases findChild s e.children with
      | none => simp
      | some c => simpa using ih c

/-- The eager call list of a plain-handler literal chain emitted along its
own path is exactly the terminal handler. -/
theorem pureCalls_lit_chain (h : HVal) (hw : truthy h = true) :
    ∀ pre : List String,
      pureCalls (some (litChain pre (.mk [] [h] [] none))) pre = [h] := by
  intro pre
  induction pre with
  | nil => simp [litChain, pureCalls, EventEntry.handlers, hw]
  | cons s pre ih =>
      simp [litChain, pureCalls, findChild, EventEntry.children,
        EventEntry.allBelow, EventEntry.allChild, ih]

/-- The below bucket produced by a registration walk extends the incoming
bucket with some number of copies of the handler (one per leading
double-wildcard segment met while still at this node). -/
theorem onWalk_allBelow (w : HVal) :
    ∀ (ps : List String) (cs : List (String × EventEntry)) (hs bs : List HVal)
      (al : Option EventEntry), ∃ n : Nat,
      (Events.onWalk "*" "**" w ps (.mk cs hs bs al)).allBelow =
        bs ++ List.replicate n w := by
  intro ps
  induction ps with
  | nil =>
      intro cs hs bs al
      exact ⟨0, by simp [Events.onWalk, EventEntry.allBelow]⟩
  | cons p ps ih =>
      intro cs hs bs al
      by_cases hpw : p = "*"
      · exact ⟨0, by
          simp [Events.onWalk, hpw, EventEntry.allBelow]⟩
      · by_cases hpd : p = "**"
        · obtain ⟨n, hn⟩ := ih cs hs (bs ++ [w]) al
          refine ⟨n + 1, ?_⟩
          simp only [Events.onWalk, if_neg hpw, if_pos hpd]
          rw [hn, List.append_assoc]
          simp [List.replicate_succ]
        · exact ⟨0, by
            simp [Events.onWalk, if_neg hpw, if_neg hpd, EventEntry.allBelow]⟩

/-- A cons-headed prefix keeps its head through appends. -/
theorem exists_cons_append {α : Type} (x : α) (l1 l2 l3 : List α) :
    ∃ t, ((x :: l1) ++ l2) ++ l3 = x :: t :=
  ⟨(l1 ++ l2) ++ l3, by simp⟩

/-- The first handler eagerly called when emitting the very pattern a single
handler was registered on (on a fresh dispatcher) is that handler. -/
theorem pureCalls_once_head (w : HVal) (hw : truthy w = true) :
    ∀ ps : List String, ∃ t,
      pureCalls (some (Events.onWalk "*" "**" w ps emptyEntry)) ps =
        w :: t := by
  intro ps
  induction ps with
  | nil =>
      exact ⟨[], by
        simp [Events.onWalk, pureCalls, emptyEntry, EventEntry.handlers, hw]⟩
  | cons p ps ih =>
      by_cases hpw : p = "*"
      · obtain ⟨t, ht⟩ := ih
        refine ⟨t, ?_⟩
        subst hpw
        have hnode : Events.onWalk "*" "**" w ("*" :: ps) emptyEntry =
            EventEntry.mk [] [] []
              (some (Events.onWalk "*" "**" w ps emptyEntry)) := rfl
        rw [hnode]
        simp only [pureCalls, EventEntry.allBelow, EventEntry.allChild,
          EventEntry.children, List.reverse_nil, List.filter_nil,
          List.nil_append]
        rw [show findChild "*" ([] : List (String × EventEntry)) = none
          from rfl]
        simp only [pureCalls, List.append_nil]
        exact ht
      · by_cases hpd : p = "**"
        · subst hpd
          obtain ⟨n, hAB⟩ := onWalk_allBelow w ps [] [] [w] none
          have hnode : Events.onWalk "*" "**" w ("**" :: ps) emptyEntry =
              Events.onWalk "*" "**" w ps (.mk [] [] [w] none) := rfl
          rw [hnode]
          simp only [pureCalls]
          rw [hAB]
          have hrep : (([w] ++ List.replicate n w).reverse.filter truthy) =
              w :: List.replicate n w := by
            have h1 : [w] ++ List.replicate n w =
                List.replicate (n + 1) w := by
              simp [List.replicate_succ]
            rw [h1, List.reverse_replicate, List.filter_replicate]
            simp [hw, List.replicate_succ]
          rw [hrep]
          exact exists_cons_append w _ _ _
        · obtain ⟨t, ht⟩ := ih
          refine ⟨t, ?_⟩
          have hnode : Events.onWalk "*" "**" w (p :: ps) emptyEntry =
              EventEntry.mk [(p, Events.onWalk "*" "**" w ps emptyEntry)]
                [] [] none := by
            simp only [Events.onWalk, emptyEntry, if_neg hpw, if_neg hpd]
            rw [show findChild p ([] : List (String × EventEntry)) = none
              from rfl]
            simp [setChild, emptyEntry]
          rw [hnode]
          simp only [pureCalls, EventEntry.allBelow, EventEntry.allChild,
            EventEntry.children, List.reverse_nil, List.filter_nil,
            List.nil_append]
          rw [show findChild p
            [(p, Events.onWalk "*" "**" w ps emptyEntry)] =
            some (Events.onWalk "*" "**" w ps emptyEntry)
            from by simp [findChild]]
          simpa using ht

/-- C10: the falsy-handler guard does not cover `once`: for any pattern,
`once(pattern, falsyHandler)` registers the internal wrapper (the wrapper
function itself is truthy), and a subsequent `emit` of the pattern invokes the
wrapper, which — after unregistering itself via `off` — throws when it
attempts to call the falsy handler. -/
theorem once_falsy_wrapper_registered_and_throws (parts : List String) :
    Events.emit (Events.once "*" parts none emptyEntry) parts =
      (Events.off "*" parts (some (.wrapper parts none))
          (Events.once "*" parts none emptyEntry),
        [.wrapper parts none], true) := by
  have hw : truthy (HVal.wrapper parts none) = true := rfl
  obtain ⟨t, ht⟩ := pureCalls_once_head (.wrapper parts none) hw parts
  have hpure : pureCalls
      (nodeAt (Events.once "*" parts none emptyEntry) []) parts =
      (HVal.wrapper parts none) :: t := by
    show pureCalls (some (Events.once "*" parts none emptyEntry)) parts = _
    exact ht
  have hth : (invoke (Events.once "*" parts none emptyEntry)
      (.wrapper parts none)).2.2 = true := rfl
  exact emitWalk_firstThrow parts (Events.once "*" parts none emptyEntry) []
    (.wrapper parts none) t hpure hth

/-- C9: for a double-wildcard pattern over a wildcard-free prefix, `on`
followed by `off` of the same pattern and handler leaves a copy of the
handler in the prefix node's exact `handlers` bucket (which `off` never
visits, returning at the double-wildcard segment), so emitting the prefix
event still invokes the handler. -/
theorem on_off_doubleWildcard_still_fires_base (pre : List String) (k : Nat)
    (hwf : ∀ s ∈ pre, s ≠ "*" ∧ s ≠ "**") :
    (Events.emit
        (Events.off "*" (pre ++ ["**"]) (some (.plain k))
          (Events.addListener "*" (pre ++ ["**"]) (.plain k) emptyEntry))
        pre).2.1 = [.plain k] := by
  have h1 : Events.addListener "*" (pre ++ ["**"]) (.plain k) emptyEntry =
      litChain pre (.mk [] [.plain k] [.plain k] none) := by
    have hc := onWalk_chain_of_literals (.plain k) ["**"] pre hwf
    rw [show Events.onWalk "*" "**" (.plain k) ["**"] emptyEntry =
      EventEntry.mk [] [.plain k] [.plain k] none from rfl] at hc
    exact hc
  have h2 : Events.off "*" (pre ++ ["**"]) (some (.plain k))
      (litChain pre (.mk [] [.plain k] [.plain k] none)) =
      litChain pre (.mk [] [.plain k] [] none) := by
    have hbase : Events.offWalk "*" "**" (some (.plain k)) ["**"]
        (EventEntry.mk [] [.plain k] [.plain k] none) =
        EventEntry.mk [] [.plain k] [] none := by
      simp [Events.offWalk, Events.offBelow, removeFirst]
    have hc := offWalk_chain_of_literals (some (.plain k)) ["**"]
      (.mk [] [.plain k] [.plain k] none) pre hwf
    rw [hbase] at hc
    exact hc
  rw [h1, h2]
  have hb : ∀ x ∈ pureCalls
      (nodeAt (litChain pre (.mk [] [.plain k] [] none)) []) pre,
      isPlain x = true := by
    intro x hx
    rw [show nodeAt (litChain pre (.mk [] [.plain k] [] none)) [] =
      some (litChain pre (.mk [] [.plain k] [] none)) from rfl,
      pureCalls_lit_chain (.plain k) rfl pre] at hx
    simp at hx
    subst hx
    rfl
  have hbw := emitWalk_benign pre
    (litChain pre (.mk [] [.plain k] [] none)) [] hb
  show (emitWalk (litChain pre (.mk [] [.plain k] [] none)) [] pre).2.1 =
    [.plain k]
  rw [hbw]
  simpa [nodeAt] using pureCalls_lit_chain (.plain k) rfl pre

/-- Witness for C9: `on("a.**", h)` then `off("a.**", h)`; `emit("a")` still
invokes `h` once. -/
theorem on_off_doubleWildcard_still_fires_base_witness :
    (Events.emit
        (Events.off "*" (["a"] ++ ["**"]) (some (.plain 0))
          (Events.addListener "*" (["a"] ++ ["**"]) (.plain 0) emptyEntry))
        ["a"]).2.1 = [.plain 0] :=
  on_off_doubleWildcard_still_fires_base ["a"] 0 (by decide)

/-- C1 amended: for a wildcard-free prefix and suffix, registering
`pre ++ "**" :: post` appends the handler to the below bucket of the node at
`pre` and keeps walking — the suffix is consumed normally and the handler is
also appended to the exact `handlers` bucket of the node at `pre ++ post`. -/
theorem on_doubleWildcard_continues_and_registers_exact
    (pre post : List String) (h : HVal) (hh : truthy h = true)
    (hwf : ∀ s ∈ pre ++ post, s ≠ "*" ∧ s ≠ "**") :
    (nodeAtLit (Events.addListener "*" (pre ++ "**" :: post) h emptyEntry)
        pre).map EventEntry.allBelow = some [h] ∧
    (nodeAtLit (Events.addListener "*" (pre ++ "**" :: post) h emptyEntry)
        (pre ++ post)).map EventEntry.handlers = some [h] := by
  have hwfpre : ∀ s ∈ pre, s ≠ "*" ∧ s ≠ "**" :=
    fun s hs => hwf s (List.mem_append_left _ hs)
  have hwfpost : ∀ s ∈ post, s ≠ "*" ∧ s ≠ "**" :=
    fun s hs => hwf s (List.mem_append_right _ hs)
  have hσ : Events.addListener "*" (pre ++ "**" :: post) h emptyEntry =
      litChain pre (Events.onWalk "*" "**" h ("**" :: post) emptyEntry) := by
    have ha : Events.addListener "*" (pre ++ "**" :: post) h emptyEntry =
        Events.onWalk "*" "**" h (pre ++ "**" :: post) emptyEntry := by
      unfold Events.addListener
      rw [hh]
      rfl
    rw [ha]
    exact onWalk_chain_of_literals h ("**" :: post) pre hwfpre
  cases post with
  | nil =>
      have hnode0 : Events.onWalk "*" "**" h ("**" :: ([] : List String))
          emptyEntry = EventEntry.mk [] [h] [h] none := rfl
      rw [hσ, hnode0]
      constructor
      · rw [nodeAtLit_litChain]
        rfl
      · rw [List.append_nil, nodeAtLit_litChain]
        rfl
  | cons s post' =>
      have hs := hwfpost s (List.mem_cons_self _ _)
      have hwfpost' : ∀ x ∈ post', x ≠ "*" ∧ x ≠ "**" :=
        fun x hx => hwfpost x (List.mem_cons_of_mem _ hx)
      have hnode0 : Events.onWalk "*" "**" h ("**" :: s :: post')
          emptyEntry =
          EventEntry.mk [(s, Events.onWalk "*" "**" h post' emptyEntry)] []
            [h] none := by
        have hstep : Events.onWalk "*" "**" h ("**" :: s :: post')
            emptyEntry =
            Events.onWalk "*" "**" h (s :: post') (.mk [] [] [h] none) := rfl
        rw [hstep]
        simp only [Events.onWalk, if_neg hs.1, if_neg hs.2]
        rw [show findChild s ([] : List (String × EventEntry)) = none
          from rfl]
        simp [setChild, emptyEntry]
      have hchain' : Events.onWalk "*" "**" h post' emptyEntry =
          litChain post' (.mk [] [h] [] none) := by
        have h0 := onWalk_chain_of_literals h [] post' hwfpost'
        rw [List.append_nil,
          show Events.onWalk "*" "**" h [] emptyEntry =
            EventEntry.mk [] [h] [] none from rfl] at h0
        exact h0
      rw [hσ, hnode0]
      constructor
      · rw [nodeAtLit_litChain]
        rfl
      · rw [nodeAtLit_append, nodeAtLit_litChain]
        simp only [Option.some_bind]
        rw [show nodeAtLit
          (EventEntry.mk [(s, Events.onWalk "*" "**" h post' emptyEntry)] []
            [h] none) (s :: post') =
          nodeAtLit (Events.onWalk "*" "**" h post' emptyEntry) post'
          from by simp [nodeAtLit, findChild, EventEntry.children]]
        rw [hchain', nodeAtLit_litChain]
        rfl

/-- Witness for C1 amended: `on("a.**.b", h)` puts `h` in node `a`'s below
bucket and in node `a.b`'s exact handlers bucket. -/
theorem on_doubleWildcard_continues_and_registers_exact_witness :
    (nodeAtLit (Events.addListener "*" (["a"] ++ "**" :: ["b"]) (.plain 0)
        emptyEntry) ["a"]).map EventEntry.allBelow = some [.plain 0] ∧
    (nodeAtLit (Events.addListener "*" (["a"] ++ "**" :: ["b"]) (.plain 0)
        emptyEntry) (["a"] ++ ["b"])).map EventEntry.handlers =
      some [.plain 0] :=
  on_doubleWildcard_continues_and_registers_exact ["a"] ["b"] (.plain 0) rfl
    (by decide)
